import Mathlib

/-
Shallow embedding of the HNSW index in src/z-hnsw.cpp.

Modelling conventions:
* Float coordinates are modelled as `Int`.  Every concrete vector in the
  repository is integral, and the code only ever compares distances, so the
  embedding uses the squared Euclidean distance (an integer): `sqrt` is
  strictly monotone on nonnegative reals, hence every comparison made by the
  code has the same outcome on squared distances.
* `std::priority_queue<std::pair<float, Node*>>` (max-at-top) is modelled as
  a list kept sorted in descending order of distance; the min-queue
  `candidates` as a list kept sorted ascending.  The C++ heap breaks
  distance ties by raw pointer value — an unspecified order, not stable
  across instances or runs — so the tie order is an explicit parameter of
  the embedding (`tie`), with `tieById` one admissible fixed resolution
  used for the single-run claims (whose concrete inputs are tie-free).
* Nodes are addressed by their index in `graph.nodes`; a node allocated by
  `insert` is given the index it will occupy once `push_back` runs.
* `Node::neighbors` is a `std::vector` of exactly `level + 1` lists; the C++
  code can index it out of range (undefined behaviour) when the entry node
  of a descent has fewer layers than `maxLevel`, or when an edge is linked
  at a layer above a neighbor's top layer.  The model reads a missing layer
  as the empty list and makes a write at a missing layer a no-op: an
  out-of-range write stores no readable edge, and no theorem concludes
  anything from the value of an out-of-range read.
* `searchLayer`'s while-loop is run on explicit fuel; `searchFuel` exceeds
  one plus the number of pushes that can ever happen into `candidates`
  (the seed plus one push per first visit, and only ids read from the
  layer's adjacency lists are ever visited), so the fuel never runs out.
-/

namespace ZHnsw

/-- Mirrors `struct Point`: a vector of coordinates plus a label. -/
structure Point where
  coordinates : List Int
  label : String
deriving DecidableEq

/-- Mirrors `euclideanDistance` up to the final monotone `sqrt`: the sum,
over the index range of the first argument, of squared component
differences.  As in the C++ (which indexes both vectors by `p1`'s range), a
second vector shorter than the first would be read out of bounds; the model
reads a missing component as `0`. -/
def euclideanDistance (p1 p2 : Point) : Int :=
  ((List.range p1.coordinates.length).map (fun i =>
    (p1.coordinates.getD i 0 - p2.coordinates.getD i 0) *
      (p1.coordinates.getD i 0 - p2.coordinates.getD i 0))).sum

/-- Mirrors `struct Node`: the stored point, the node's top layer (the C++
`neighbors` vector has `level + 1` entries), and the per-layer neighbor
lists holding node indices. -/
structure Node where
  point : Point
  level : Nat
  nbrs : List (List Nat)
deriving DecidableEq

/-- Value returned when dereferencing an id that is not in the graph; such
a dereference never happens on the executions the theorems below consider,
see the validity invariants. -/
def defaultNode : Node := ⟨⟨[], ""⟩, 0, []⟩

/-- Point used as the default for out-of-range list reads in statements. -/
def defaultPoint : Point := ⟨[], ""⟩

/-- Mirrors `Node::Node(pt, maxLevel)`: `level + 1` empty neighbor lists. -/
def mkNode (p : Point) (level : Nat) : Node :=
  ⟨p, level, List.replicate (level + 1) []⟩

/-- Neighbor list of node `i` at layer `l`.  A read of a layer beyond the
node's `neighbors` vector is undefined behaviour in the C++; the model reads
it as the empty list.  No theorem below concludes anything from the value of
such a read: the amended symmetry claim restricts itself to layers within
both endpoints' range, and the counterexamples only use the convention in
the direction "no edge is stored there". -/
def nbrsAt (g : List Node) (i l : Nat) : List Nat :=
  (g.getD i defaultNode).nbrs.getD l []

/-- Top layer of node `i` (0 for an out-of-range index). -/
def levelAt (g : List Node) (i : Nat) : Nat :=
  (g.getD i defaultNode).level

/-- The C++ priority queues order equal-distance entries by raw `Node*`
comparison — an unspecified order that is not stable across instances or
process runs.  The model therefore takes the tie order as an explicit
parameter; `tieById` is one admissible resolution (by node id). -/
def tieById : Nat → Nat → Bool := fun a b => decide (a ≤ b)

/-- A second admissible resolution of the unspecified tie order (reverse of
`tieById`), used to exhibit tie-order dependence of search results. -/
def tieRev : Nat → Nat → Bool := fun a b => decide (b ≤ a)

/-- Insert into a list kept sorted descending by distance, equal distances
ordered by the given tie resolution; models a push into the max-at-top
`topCandidates` priority queue, whose top (head) is the retained candidate
farthest from the query. -/
def insertDesc (tie : Nat → Nat → Bool) (x : Int × Nat) :
    List (Int × Nat) → List (Int × Nat)
  | [] => [x]
  | y :: ys =>
    if y.1 < x.1 ∨ (y.1 = x.1 ∧ tie y.2 x.2) then x :: y :: ys
    else y :: insertDesc tie x ys

/-- Insert into a list kept sorted ascending by distance, equal distances
ordered by the given tie resolution; models a push into the min-at-top
`candidates` priority queue. -/
def insertAsc (tie : Nat → Nat → Bool) (x : Int × Nat) :
    List (Int × Nat) → List (Int × Nat)
  | [] => [x]
  | y :: ys =>
    if x.1 < y.1 ∨ (x.1 = y.1 ∧ tie x.2 y.2) then x :: y :: ys
    else y :: insertAsc tie x ys

/-- State of the `searchLayer` while-loop: the min-queue `candidates`, the
max-queue `topCandidates`, the `visited` map (as the list of keys marked
true) and the mutable `lowerBound`. -/
structure SLState where
  cands : List (Int × Nat)
  top : List (Int × Nat)
  visited : List Nat
  lb : Int
deriving DecidableEq

/-- Mirrors the body of the `for (Node* neighbor : currNode->neighbors[level])`
scan inside `searchLayer`: an unvisited neighbor is marked visited and, when
the result holds fewer than `ef` items or the new distance beats
`lowerBound`, pushed into both queues, evicting the worst retained candidate
(and refreshing `lowerBound`) when the result exceeds `ef`. -/
def scanNbr (tie : Nat → Nat → Bool) (g : List Node) (point : Point)
    (ef : Nat) (s : SLState) (nb : Nat) : SLState :=
  if s.visited.contains nb then s
  else
    let d := euclideanDistance point (g.getD nb defaultNode).point
    if s.top.length < ef ∨ d < s.lb then
      let top1 := insertDesc tie (d, nb) s.top
      if ef < top1.length then
        { cands := insertAsc tie (d, nb) s.cands, top := top1.tail,
          visited := nb :: s.visited,
          lb := (top1.tail.headD (0, 0)).1 }
      else
        { cands := insertAsc tie (d, nb) s.cands, top := top1,
          visited := nb :: s.visited, lb := s.lb }
    else { s with visited := nb :: s.visited }

/-- Mirrors the `while (!candidates.empty())` loop of `searchLayer`.  Each
iteration pops the closest candidate, breaks when its distance exceeds
`lowerBound`, and otherwise scans the popped node's layer-`level` neighbor
list via `scanNbr`, exactly as the C++ does. -/
def searchLoop (tie : Nat → Nat → Bool) (g : List Node) (point : Point)
    (level ef : Nat) : Nat → SLState → SLState
  | 0, st => st
  | fuel + 1, st =>
    match st.cands with
    | [] => st
    | (dist, currId) :: rest =>
      if st.lb < dist then { st with cands := rest }
      else
        searchLoop tie g point level ef fuel
          ((nbrsAt g currId level).foldl (scanNbr tie g point ef)
            { st with cands := rest })

/-- Fuel that strictly dominates the number of iterations `searchLayer` can
perform: the loop pops one candidate per iteration and pushes at most once
per id read from a layer-`level` adjacency list, plus the seed. -/
def searchFuel (g : List Node) (level : Nat) : Nat :=
  g.length + (g.map (fun n => (n.nbrs.getD level []).length)).sum + 2

/-- Mirrors `HNSW::searchLayer` at an explicit tie resolution: seed both
queues and the visited map with the entry node at its true distance, run
the loop, return the bounded result (as the descending list: its head is
the worst retained candidate, and popping the C++ max-queue yields exactly
this list order). -/
def searchLayerT (tie : Nat → Nat → Bool) (g : List Node) (point : Point)
    (enterId level ef : Nat) : List (Int × Nat) :=
  let lb := euclideanDistance point (g.getD enterId defaultNode).point
  (searchLoop tie g point level ef (searchFuel g level)
    { cands := [(lb, enterId)], top := [(lb, enterId)],
      visited := [enterId], lb := lb }).top

/-- `searchLayerT` at the fixed by-id tie resolution, used to state the
single-run claims (whose concrete inputs are tie-free, so any resolution
gives the same values there). -/
def searchLayer (g : List Node) (point : Point) (enterId level ef : Nat) :
    List (Int × Nat) :=
  searchLayerT tieById g point enterId level ef

/-- Mirrors the selection loop of `HNSW::selectNeighbors`: repeatedly pop
the TOP of the max-at-top candidate queue (the farthest candidate first),
keeping ids not already selected, until the queue is empty or
`maxNeighbors` ids have been kept. -/
def pickLoop (maxNeighbors : Nat) : List (Int × Nat) → List Nat → List Nat
  | [], sel => sel
  | (_, nb) :: rest, sel =>
    if sel.length < maxNeighbors then
      if sel.contains nb then pickLoop maxNeighbors rest sel
      else pickLoop maxNeighbors rest (sel ++ [nb])
    else sel

/-- Append id `j` to node `n`'s layer-`l` neighbor list.  The C++ performs
an unchecked `neighbors[l].push_back(j)`; when `l` is beyond the vector
this is an out-of-range `operator[]` — undefined behaviour that stores no
readable edge — so the model conservatively makes the out-of-range write a
no-op. -/
def pushNbr (n : Node) (l : Nat) (j : Nat) : Node :=
  if l < n.nbrs.length then
    { n with nbrs := n.nbrs.set l (n.nbrs.getD l [] ++ [j]) }
  else n

/-- Apply `f` to the node stored at index `i`. -/
def updateNode (g : List Node) (i : Nat) (f : Node → Node) : List Node :=
  g.set i (f (g.getD i defaultNode))

/-- Mirrors `HNSW::selectNeighbors`: choose the ids `pickLoop` keeps, then
create the symmetric edges — each chosen id is appended to the new node's
layer-`level` list and the new node's id to each chosen node's
layer-`level` list.  Returns the updated graph and the updated new node
(which is not yet stored in the graph). -/
def selectNeighbors (g : List Node) (newNode : Node) (newId : Nat)
    (topCandidates : List (Int × Nat)) (level maxNeighbors : Nat) :
    List Node × Node :=
  let chosen := pickLoop maxNeighbors topCandidates []
  (chosen.foldl (fun gg nb => updateNode gg nb (fun m => pushNbr m level newId)) g,
   chosen.foldl (fun n nb => pushNbr n level nb) newNode)

/-- Mirrors the greedy descent loop shared by `insertNode` and `search`:
`while (level > target) { enterPoint = searchLayer(point, enterPoint,
level, 1).top().second; --level; }`, returning the final entry id.  The
`top()` of the returned max-queue is the head of the descending list. -/
def descendLoop (tie : Nat → Nat → Bool) (g : List Node) (p : Point)
    (target : Nat) : Nat → Nat → Nat
  | enter, 0 => enter
  | enter, level + 1 =>
    if target < level + 1 then
      descendLoop tie g p target
        ((searchLayerT tie g p enter (level + 1) 1).headD (0, 0)).2 level
    else enter

/-- Mirrors the `for (int l = level; l >= 0; --l)` linking loop of
`insertNode`: at each layer run `searchLayer` with `ef = efConstruction`
from the (fixed) entry id against the current graph, then link via
`selectNeighbors`, threading graph and new node through the layers. -/
def linkLayers (tie : Nat → Nat → Bool) (newId enterId efC maxN : Nat)
    (p : Point) : Nat → List Node → Node → List Node × Node
  | 0, g, nn =>
    selectNeighbors g nn newId (searchLayerT tie g p enterId 0 efC) 0 maxN
  | level + 1, g, nn =>
    let r := selectNeighbors g nn newId
      (searchLayerT tie g p enterId (level + 1) efC) (level + 1) maxN
    linkLayers tie newId enterId efC maxN p level r.1 r.2

/-- Mirrors `class HNSW`: the graph's node vector, `maxLevel`,
the construction parameters, and the state of the default-constructed
random engine (a deterministic stream; `levelMult` only feeds the
floating-point level map inside `getRandomLevel`, which the theorems
abstract as a sampler function). -/
structure HNSW where
  nodes : List Node
  maxLevel : Nat
  maxNeighbors : Nat
  efConstruction : Nat
  gen : Nat
deriving DecidableEq

/-- Seed state of a default-constructed `std::default_random_engine`: the
same fixed value for every default construction (no seed parameter is
passed in `HNSW::HNSW`). -/
def defaultGenSeed : Nat := 1

/-- Mirrors the `HNSW` constructor: empty graph, `maxLevel = 0`, stored
parameters, default-constructed engine. -/
def mkHNSW (maxNeighbors efConstruction : Nat) : HNSW :=
  ⟨[], 0, maxNeighbors, efConstruction, defaultGenSeed⟩

/-- Mirrors `HNSW::insertNode`.  Empty graph: push the node and return
(note the C++ early return skips the `maxLevel` update).  Otherwise start
from `graph.nodes[0]` at `maxLevel`, descend greedily to the new node's top
layer, link the new node at each layer from `min(level, maxLevel)` down to
0, update `maxLevel` if the new node's top layer exceeds it, and push the
node. -/
def insertNode (tie : Nat → Nat → Bool) (h : HNSW) (newNode : Node) : HNSW :=
  if h.nodes.isEmpty then
    { h with nodes := h.nodes ++ [newNode] }
  else
    let newId := h.nodes.length
    let enterId := descendLoop tie h.nodes newNode.point newNode.level 0 h.maxLevel
    let level := min newNode.level h.maxLevel
    let r := linkLayers tie newId enterId h.efConstruction h.maxNeighbors
      newNode.point level h.nodes newNode
    { h with
      nodes := r.1 ++ [r.2],
      maxLevel := if h.maxLevel < newNode.level then newNode.level else h.maxLevel }

/-- Mirrors `HNSW::insert` with the sampled level made explicit and the tie
resolution a parameter: allocate `Node(point, level)` and run
`insertNode`. -/
def insertAtLevelT (tie : Nat → Nat → Bool) (h : HNSW) (p : Point)
    (lvl : Nat) : HNSW :=
  insertNode tie h (mkNode p lvl)

/-- `insertAtLevelT` at the fixed by-id tie resolution. -/
def insertAtLevel (h : HNSW) (p : Point) (lvl : Nat) : HNSW :=
  insertAtLevelT tieById h p lvl

/-- Mirrors `HNSW::insert` with `getRandomLevel` abstracted as a
deterministic sampler on the engine state (the C++ draws from the engine
and maps the draw through the floating-point level formula; both steps are
deterministic functions of the engine state). -/
def insertRT (tie : Nat → Nat → Bool) (sampler : Nat → Nat × Nat)
    (h : HNSW) (p : Point) : HNSW :=
  let r := sampler h.gen
  insertAtLevelT tie { h with gen := r.2 } p r.1

/-- `insertRT` at the fixed by-id tie resolution. -/
def insertR (sampler : Nat → Nat × Nat) (h : HNSW) (p : Point) : HNSW :=
  insertRT tieById sampler h p

/-- Level sequence the sampler produces for `n` insertions starting from an
engine state: what `getRandomLevel` yields call by call. -/
def sampledLevels (sampler : Nat → Nat × Nat) : Nat → Nat → List Nat
  | _, 0 => []
  | g, n + 1 => (sampler g).1 :: sampledLevels sampler (sampler g).2 n

/-- Build an index by the repository's usage pattern at an explicit tie
resolution: construct, then insert each point in order, levels drawn from
the sampler. -/
def buildWithT (tie : Nat → Nat → Bool) (sampler : Nat → Nat × Nat)
    (maxN efC : Nat) (pts : List Point) : HNSW :=
  pts.foldl (insertRT tie sampler) (mkHNSW maxN efC)

/-- `buildWithT` at the fixed by-id tie resolution. -/
def buildWith (sampler : Nat → Nat × Nat) (maxN efC : Nat)
    (pts : List Point) : HNSW :=
  buildWithT tieById sampler maxN efC pts

/-- Build an index from an explicit list of (point, sampled level) pairs at
an explicit tie resolution; `buildWithT tie sampler _ _ pts` is this
applied to the levels the sampler produces, so properties proved for every
level sequence cover every run. -/
def buildAtLevelsT (tie : Nat → Nat → Bool) (maxN efC : Nat)
    (prs : List (Point × Nat)) : HNSW :=
  prs.foldl (fun s pr => insertAtLevelT tie s pr.1 pr.2) (mkHNSW maxN efC)

/-- `buildAtLevelsT` at the fixed by-id tie resolution. -/
def buildAtLevels (maxN efC : Nat) (prs : List (Point × Nat)) : HNSW :=
  buildAtLevelsT tieById maxN efC prs

/-- Mirrors `HNSW::search` at an explicit tie resolution: empty graph gives
the empty result; otherwise descend from `graph.nodes[0]` at `maxLevel`
down to layer 0, run the wide layer search with `ef = k`, and pop the
max-queue into the result vector — the results list is therefore exactly
the descending list the bounded search returns, dereferenced to points. -/
def searchT (tie : Nat → Nat → Bool) (h : HNSW) (q : Point) (k : Nat) :
    List Point :=
  if h.nodes.isEmpty then []
  else
    let enterId := descendLoop tie h.nodes q 0 0 h.maxLevel
    (searchLayerT tie h.nodes q enterId 0 k).map
      (fun pr => (h.nodes.getD pr.2 defaultNode).point)

/-- `searchT` at the fixed by-id tie resolution. -/
def search (h : HNSW) (q : Point) (k : Nat) : List Point :=
  searchT tieById h q k

/-- Ids a layer search over graph `g` at layer `level`, entered at `enter`,
can ever touch: the entry id and the ids stored in some node's layer-`level`
adjacency list. -/
def idOk (g : List Node) (level enter x : Nat) : Prop :=
  x = enter ∨ ∃ i, x ∈ nbrsAt g i level

/-- Well-formedness of a graph reachable by insertions: every stored
neighbor id is a valid index, every node's layer vector has exactly
`level + 1` entries (as `Node::Node` allocates it), and adjacency is
symmetric at every layer that lies within both endpoints' layer range (the
back-edge write above a neighbor's range is undefined behaviour in the C++
and stores no readable edge, so symmetry can only be asserted in-range). -/
def GoodGraph (g : List Node) : Prop :=
  (∀ i l x, x ∈ nbrsAt g i l → x < g.length) ∧
  (∀ i, i < g.length →
    (g.getD i defaultNode).nbrs.length = (g.getD i defaultNode).level + 1) ∧
  (∀ i j l, l ≤ levelAt g i → l ≤ levelAt g j →
    (j ∈ nbrsAt g i l ↔ i ∈ nbrsAt g j l))

/-- Invariant threaded through the linking loop of one insertion.  `g` is
the graph without the new node, `nn` the new node under construction,
`newId` its future index, and every layer below `layBound` of `nn` is still
untouched.  The mirror field records that an old node stores the new id at
a layer exactly when the new node links to it there AND the back-edge write
was in range. -/
structure LinkInv (newId : Nat) (g : List Node) (nn : Node) (layBound : Nat) : Prop where
  len : g.length = newId
  lenEq : ∀ i, i < newId →
    (g.getD i defaultNode).nbrs.length = levelAt g i + 1
  valid : ∀ i l x, x ∈ nbrsAt g i l → x ≤ newId
  mirror : ∀ i l, newId ∈ nbrsAt g i l ↔
    (i ∈ nn.nbrs.getD l [] ∧ l ≤ levelAt g i)
  oldSym : ∀ i j l, i < newId → j < newId → l ≤ levelAt g i → l ≤ levelAt g j →
    (j ∈ nbrsAt g i l ↔ i ∈ nbrsAt g j l)
  lowEmpty : ∀ l, l < layBound → nn.nbrs.getD l [] = []
  nnValid : ∀ l x, x ∈ nn.nbrs.getD l [] → x < newId

/-- Concrete input for C1: one-dimensional point at 0. -/
def c1A : Point := ⟨[0], "A"⟩

/-- Concrete input for C1: one-dimensional point at 3. -/
def c1B : Point := ⟨[3], "B"⟩

/-- Concrete query for C1 and C3. -/
def c1Q : Point := ⟨[0], "Q"⟩

/-- Index for C1: both points inserted at layer 0 with the repository's
`maxNeighbors = 4`, `efConstruction = 200` configuration. -/
def c1H : HNSW := buildAtLevels 4 200 [(c1A, 0), (c1B, 0)]

/-- Concrete input for C2. -/
def c2A : Point := ⟨[1], "A"⟩

/-- Concrete input for C2. -/
def c2B : Point := ⟨[2], "B"⟩

/-- Concrete input for C2. -/
def c2C : Point := ⟨[3], "C"⟩

/-- Concrete input for C2: the point whose insertion invokes the selector. -/
def c2D : Point := ⟨[0], "D"⟩

/-- Index for C2 before the insertion of `c2D`: three collinear points at
layer 0, `maxNeighbors = 2`, `efConstruction = 10`. -/
def c2H : HNSW := buildAtLevels 2 10 [(c2A, 0), (c2B, 0), (c2C, 0)]

/-- Index for C3: a single inserted point. -/
def c3H : HNSW := buildAtLevels 4 200 [(c1A, 0)]

/-- Concrete input for C4: a four-dimensional point. -/
def c4A : Point := ⟨[1, 2, 3, 4], "A"⟩

/-- Concrete input for C4: a two-dimensional point inserted into the
four-dimensional index. -/
def c4P : Point := ⟨[1, 2], "P"⟩

/-- Concrete graph for C6: a layer-0 path E(5) — X(10) — Y(-1), ids 0, 1, 2,
with symmetric adjacency. -/
def c6G : List Node :=
  [⟨⟨[5], "E"⟩, 0, [[1]]⟩, ⟨⟨[10], "X"⟩, 0, [[0, 2]]⟩, ⟨⟨[-1], "Y"⟩, 0, [[1]]⟩]

/-- Concrete query for C6, at the origin. -/
def c6Q : Point := ⟨[0], "Q"⟩

/-- Index for C7: a fresh index whose very first insertion samples level 1. -/
def c7H1 : HNSW := insertAtLevel (mkHNSW 4 200) ⟨[0], "A"⟩ 1

/-- Index for C7: a level-0 first node followed by a level-2 node, so the
stored `maxLevel` (2) exceeds the top layer of `graph.nodes[0]` (0). -/
def c7H2 : HNSW := buildAtLevels 4 200 [(⟨[0], "A"⟩, 0), (⟨[3], "B"⟩, 2)]

/-- Index for the C5 counterexample: levels 0, 2, 2.  Inserting C at level
2 links it to A at layer 2, but A's layer vector has a single entry, so the
back-edge write `A->neighbors[2].push_back(C)` is out of range in the C++
(undefined behaviour, no readable mirrored edge). -/
def c5H : HNSW :=
  buildAtLevels 4 200 [(⟨[0], "A"⟩, 0), (⟨[3], "B"⟩, 2), (⟨[6], "C"⟩, 2)]

/-- Index for the C5 witness: two level-0 insertions, all links in range. -/
def c5W : HNSW := buildAtLevels 4 200 [(⟨[0], "A"⟩, 0), (⟨[3], "B"⟩, 0)]

/-- Concrete inputs for C9: B and C are equidistant from the query, so the
order in which a search returns them depends on how the max-queue resolves
the distance tie. -/
def c9A : Point := ⟨[1], "A"⟩

/-- Concrete input for C9. -/
def c9B : Point := ⟨[5], "B"⟩

/-- Concrete input for C9, equidistant with `c9B` from the query. -/
def c9C : Point := ⟨[-5], "C"⟩

/-- Concrete query for C9: squared distances to A, B, C are 1, 25, 25. -/
def c9Q : Point := ⟨[0], "Q"⟩

/-- Insertion sequence for the C9 counterexample, all at level 0. -/
def c9Prs : List (Point × Nat) := [(c9A, 0), (c9B, 0), (c9C, 0)]

/-- C1: the claim states that `search` returns results sorted ascending by
distance to the query.  The code pops the max-at-top bounded result
structure directly into the result vector without re-sorting, so on the
two-point index `c1H` the query at the origin returns `[B, A]` with
distances `[9, 0]`: the first result is strictly farther than the second,
refuting ascending order at `i = 0`. -/
theorem c1_search_order_refuted_at_input :
    (search c1H c1Q 2).length = 2 ∧
    euclideanDistance c1Q ((search c1H c1Q 2).getD 1 defaultPoint) <
      euclideanDistance c1Q ((search c1H c1Q 2).getD 0 defaultPoint) := by
  decide

/-- C2: the claim states that the neighbor selector keeps the up-to-`M`
closest candidates.  `selectNeighbors` pops the max-at-top candidate queue,
so it keeps the farthest candidates first: inserting `c2D` into `c2H` with
`M = 2` produces the candidate set `[(9, 2), (4, 1), (1, 0)]`, from which
the selector keeps ids `[2, 1]` (distances 9 and 4) and leaves id 0
unselected although its distance 1 is strictly smaller — a selected
candidate farther than an unselected one. -/
theorem c2_selector_keeps_farthest_at_input :
    searchLayer c2H.nodes c2D 0 0 10 = [(9, 2), (4, 1), (1, 0)] ∧
    pickLoop 2 (searchLayer c2H.nodes c2D 0 0 10) [] = [2, 1] ∧
    nbrsAt (insertAtLevel c2H c2D 0).nodes 3 0 = [2, 1] ∧
    euclideanDistance c2D c2A < euclideanDistance c2D c2C := by
  decide

/-- C3: the claim states `len(search(q, k)) = min(k, N)` for all `k ≥ 0`.
On the one-point index `c3H` the call `search(q, 0)` returns one result,
not `min(0, 1) = 0`: the entry point is seeded into the bounded result
before the `ef` bound is ever enforced, and the eviction branch keeps the
result at size 1 when `ef = 0`. -/
theorem c3_result_size_refuted_at_input :
    (search c3H c1Q 0).length = 1 ∧ min 0 c3H.nodes.length = 0 := by
  decide

/-- C4: the claim states that inserting a vector of mismatched dimension
fails with `DimensionMismatch` and leaves the graph unchanged.  The code
performs no dimension check anywhere and `insert` cannot fail: inserting
the two-dimensional `c4P` into the four-dimensional index grows the node
count from 1 to 2 and creates the edge between the nodes (the distance loop
simply runs over the shorter vector's index range). -/
theorem c4_mismatched_insert_mutates_graph :
    (insertAtLevel (insertAtLevel (mkHNSW 4 200) c4A 0) c4P 0).nodes.length = 2 ∧
    nbrsAt (insertAtLevel (insertAtLevel (mkHNSW 4 200) c4A 0) c4P 0).nodes 0 0 = [1] := by
  decide

/-- C6: the claim states the layer search terminates by the convergence
test only when the popped distance exceeds the worst retained distance AND
the result already holds `ef` items.  On the path graph `c6G` with `ef = 3`
the loop pops X (distance 100) while `lowerBound` still equals the entry
distance 25 (no eviction has happened, so `lowerBound` is not the worst
retained distance) and breaks with only 2 of 3 results, never expanding X:
node Y — a layer-0 neighbor of X at distance 1 — is absent from the
result although the result held fewer than `ef` items. -/
theorem c6_break_before_ef_items_at_input :
    (searchLayer c6G c6Q 0 0 3).length = 2 ∧
    ((searchLayer c6G c6Q 0 0 3).map Prod.snd).contains 2 = false ∧
    (nbrsAt c6G 1 0).contains 2 = true ∧
    euclideanDistance c6Q ((c6G.getD 2 defaultNode).point) = 1 := by
  decide

/-- C7: the claim states the stored maximum layer always equals the
maximum node top layer and that the entry point of every descent has that
top layer.  The first-insertion branch of `insertNode` returns before the
`maxLevel` update, so after a first insertion at level 1 the stored
`maxLevel` is 0 while the maximum node top layer is 1; and the code starts
every descent from `graph.nodes[0]` (no entry-point field exists), whose
top layer in `c7H2` is 0 while the stored `maxLevel` is 2. -/
theorem c7_maxlevel_and_entry_refuted_at_input :
    c7H1.maxLevel = 0 ∧ (c7H1.nodes.map Node.level).foldl max 0 = 1 ∧
    c7H2.maxLevel = 2 ∧ (c7H2.nodes.getD 0 defaultNode).level = 0 := by
  decide


/-- Folding a step that preserves a predicate preserves it, when the step
preserves it for every element of the list being folded. -/
theorem foldl_inv_mem {α β : Type} (P : β → Prop) (xs : List α) (f : β → α → β)
    (hstep : ∀ b a, a ∈ xs → P b → P (f b a)) :
    ∀ b, P b → P (xs.foldl f b) := by
  induction xs with
  | nil => intro b hb; simpa using hb
  | cons a t ih =>
    intro b hb
    exact ih (fun s x hx hs => hstep s x (List.mem_cons_of_mem a hx) hs)
      (f b a) (hstep b a (List.mem_cons_self a t) hb)

/-- The graph component of `selectNeighbors` has the same length as its
input: the update only ever uses `List.set`. -/
theorem selectNeighbors_graph_length (g : List Node) (nn : Node)
    (newId : Nat) (tc : List (Int × Nat)) (level maxN : Nat) :
    (selectNeighbors g nn newId tc level maxN).1.length = g.length := by
  unfold selectNeighbors
  refine foldl_inv_mem (fun gg => gg.length = g.length) _ _ ?_ g rfl
  intro b a _ hb
  simpa [updateNode] using hb

/-- The linking loop never changes the number of stored nodes. -/
theorem linkLayers_graph_length (tie : Nat → Nat → Bool)
    (newId enterId efC maxN : Nat) (p : Point) :
    ∀ (level : Nat) (g : List Node) (nn : Node),
      ((linkLayers tie newId enterId efC maxN p level g nn).1).length = g.length := by
  intro level
  induction level with
  | zero => intro g nn; simpa [linkLayers] using selectNeighbors_graph_length ..
  | succ l ih =>
    intro g nn
    simpa [linkLayers] using
      (ih _ _).trans (selectNeighbors_graph_length g nn newId _ (l + 1) maxN)

/-- One insertion grows the node vector by exactly one: both branches of
`insertNode` end in a single `push_back`. -/
theorem insertAtLevelT_length (tie : Nat → Nat → Bool) (h : HNSW) (p : Point)
    (lvl : Nat) :
    (insertAtLevelT tie h p lvl).nodes.length = h.nodes.length + 1 := by
  unfold insertAtLevelT insertNode
  split
  · simp
  · simp [linkLayers_graph_length]

/-- Building from a fold of inserts adds one node per point, from any
starting state and at any tie resolution. -/
theorem foldl_insertRT_length (tie : Nat → Nat → Bool)
    (sampler : Nat → Nat × Nat) (pts : List Point) :
    ∀ h : HNSW, (pts.foldl (insertRT tie sampler) h).nodes.length =
      h.nodes.length + pts.length := by
  induction pts with
  | nil => intro h; simp
  | cons q t ih =>
    intro h
    have hs : (insertRT tie sampler h q).nodes.length = h.nodes.length + 1 := by
      unfold insertRT
      exact insertAtLevelT_length ..
    simp [List.foldl, ih (insertRT tie sampler h q), hs]
    omega

/-- C10: every call to `insert` appends exactly one node to the graph
store, unconditionally, and nothing ever removes a node, so `n` inserts
leave exactly `n` nodes.  In particular inserting the same point twice
(identical vector and label) adds two distinct nodes: the count still grows
by one each time and no deduplication exists in the code. -/
theorem c10_insert_always_appends_one_node (h : HNSW) (p : Point) (lvl : Nat)
    (sampler : Nat → Nat × Nat) (maxN efC : Nat) (pts : List Point) :
    (insertAtLevel h p lvl).nodes.length = h.nodes.length + 1 ∧
    (buildWith sampler maxN efC pts).nodes.length = pts.length := by
  refine ⟨insertAtLevelT_length tieById h p lvl, ?_⟩
  simpa [buildWith, buildWithT, mkHNSW] using
    foldl_insertRT_length tieById sampler pts (mkHNSW maxN efC)

/-- Reading any position of a replicated list of empty lists gives the
empty list. -/
theorem getD_replicate_nil (k i : Nat) :
    (List.replicate k ([] : List Nat)).getD i [] = [] := by
  induction k generalizing i with
  | zero => simp
  | succ n ih => cases i <;> simp [List.replicate, ih]

/-- Reading the position just written by `List.set`, when in range. -/
theorem getD_set_self {α : Type} (d : α) :
    ∀ (xs : List α) (i : Nat) (v : α), i < xs.length →
      (xs.set i v).getD i d = v := by
  intro xs
  induction xs with
  | nil => intro i v h; simp at h
  | cons a t ih =>
    intro i v h
    cases i with
    | zero => rfl
    | succ n => simpa using ih n v (by simpa using h)

/-- Reading a position other than the one `List.set` wrote. -/
theorem getD_set_ne {α : Type} (d : α) :
    ∀ (xs : List α) (i j : Nat) (v : α), j ≠ i →
      (xs.set i v).getD j d = xs.getD j d := by
  intro xs
  induction xs with
  | nil => intro i j v _; rfl
  | cons a t ih =>
    intro i j v hne
    cases i with
    | zero => cases j with
      | zero => exact absurd rfl hne
      | succ m => rfl
    | succ n => cases j with
      | zero => rfl
      | succ m => simpa using ih n m v (by omega)

/-- Writing past the end of a list is a no-op of `List.set`. -/
theorem set_oob {α : Type} :
    ∀ (xs : List α) (i : Nat) (v : α), xs.length ≤ i → xs.set i v = xs := by
  intro xs
  induction xs with
  | nil => intro i v _; rfl
  | cons a t ih =>
    intro i v h
    cases i with
    | zero => simp at h
    | succ n =>
      simp only [List.set]
      rw [ih n v (by simpa using h)]

/-- Reading the appended element of a one-element concatenation. -/
theorem getD_concat_self {α : Type} (d : α) :
    ∀ (xs : List α) (x : α), (xs ++ [x]).getD xs.length d = x := by
  intro xs
  induction xs with
  | nil => intro x; rfl
  | cons a t ih => intro x; exact ih x

/-- Reading before the appended element of a one-element concatenation. -/
theorem getD_concat_lt {α : Type} (d : α) :
    ∀ (xs : List α) (x : α) (i : Nat), i < xs.length →
      (xs ++ [x]).getD i d = xs.getD i d := by
  intro xs
  induction xs with
  | nil => intro x i h; simp at h
  | cons a t ih =>
    intro x i h
    cases i with
    | zero => rfl
    | succ n => simpa using ih x n (by simpa using h)

/-- Reading past the appended element of a one-element concatenation. -/
theorem getD_concat_gt {α : Type} (d : α) :
    ∀ (xs : List α) (x : α) (i : Nat), xs.length < i →
      (xs ++ [x]).getD i d = d := by
  intro xs
  induction xs with
  | nil =>
    intro x i h
    cases i with
    | zero => simp at h
    | succ n => cases n <;> rfl
  | cons a t ih =>
    intro x i h
    cases i with
    | zero => simp at h
    | succ n => simpa using ih x n (by simpa using h)

/-- Layer-wise effect of `pushNbr`: when the written layer is in range it
gains `j` at its end and every other layer is unchanged; an out-of-range
write changes nothing (the C++ write there is undefined behaviour and
stores no readable edge). -/
theorem pushNbr_getD (n : Node) (l j l2 : Nat) :
    (pushNbr n l j).nbrs.getD l2 [] =
      if l2 = l ∧ l < n.nbrs.length then n.nbrs.getD l [] ++ [j]
      else n.nbrs.getD l2 [] := by
  unfold pushNbr
  by_cases hr : l < n.nbrs.length
  · rw [if_pos hr]
    by_cases h : l2 = l
    · rw [if_pos ⟨h, hr⟩, h]
      exact getD_set_self ([] : List Nat) n.nbrs l _ hr
    · rw [if_neg (fun hc => h hc.1)]
      exact getD_set_ne ([] : List Nat) n.nbrs l l2 _ h
  · rw [if_neg hr, if_neg (fun hc => hr hc.2)]

/-- A neighbor write never changes the number of layers. -/
theorem pushNbr_length (n : Node) (l j : Nat) :
    (pushNbr n l j).nbrs.length = n.nbrs.length := by
  unfold pushNbr
  split
  · simp
  · rfl

/-- A neighbor write never changes the node's top layer. -/
theorem pushNbr_level (n : Node) (l j : Nat) :
    (pushNbr n l j).level = n.level := by
  unfold pushNbr
  split <;> rfl

/-- Folding `pushNbr` at one in-range layer over a list of ids appends
exactly that list to the layer and leaves every other layer unchanged. -/
theorem foldl_pushNbr_getD (level : Nat) :
    ∀ (chosen : List Nat) (nn : Node), level < nn.nbrs.length → ∀ (l2 : Nat),
      ((chosen.foldl (fun n nb => pushNbr n level nb) nn).nbrs.getD l2 []) =
        (if l2 = level then nn.nbrs.getD level [] ++ chosen
         else nn.nbrs.getD l2 []) := by
  intro chosen
  induction chosen with
  | nil => intro nn _ l2; by_cases h : l2 = level <;> simp [h]
  | cons a t ih =>
    intro nn hr l2
    rw [List.foldl_cons,
      ih (pushNbr nn level a) (by rw [pushNbr_length]; exact hr) l2]
    by_cases h : l2 = level
    · rw [if_pos h, if_pos h, pushNbr_getD, if_pos ⟨rfl, hr⟩, List.append_assoc,
        List.singleton_append]
    · rw [if_neg h, if_neg h, pushNbr_getD, if_neg (fun hc => h hc.1)]

/-- The neighbor-write fold preserves the layer count. -/
theorem foldl_pushNbr_length (level : Nat) :
    ∀ (chosen : List Nat) (nn : Node),
      ((chosen.foldl (fun n nb => pushNbr n level nb) nn).nbrs.length) =
        nn.nbrs.length := by
  intro chosen
  induction chosen with
  | nil => intro nn; rfl
  | cons a t ih =>
    intro nn
    rw [List.foldl_cons, ih (pushNbr nn level a), pushNbr_length]

/-- The neighbor-write fold preserves the node's top layer. -/
theorem foldl_pushNbr_level (level : Nat) :
    ∀ (chosen : List Nat) (nn : Node),
      ((chosen.foldl (fun n nb => pushNbr n level nb) nn).level) = nn.level := by
  intro chosen
  induction chosen with
  | nil => intro nn; rfl
  | cons a t ih =>
    intro nn
    rw [List.foldl_cons, ih (pushNbr nn level a), pushNbr_level]

/-- The selection loop keeps at most `maxNeighbors` ids. -/
theorem pickLoop_length_le (m : Nat) :
    ∀ (tc : List (Int × Nat)) (sel : List Nat), sel.length ≤ m →
      (pickLoop m tc sel).length ≤ m := by
  intro tc
  induction tc with
  | nil => intro sel h; simpa [pickLoop] using h
  | cons a t ih =>
    intro sel h
    obtain ⟨d, nb⟩ := a
    simp only [pickLoop]
    split
    · split
      · exact ih sel h
      · exact ih (sel ++ [nb]) (by simp; omega)
    · exact h

/-- A freshly allocated node has every layer list empty. -/
theorem mkNode_getD (p : Point) (lvl l : Nat) :
    (mkNode p lvl).nbrs.getD l [] = [] := by
  exact getD_replicate_nil (lvl + 1) l

/-- Through the whole linking loop, the new node's per-layer neighbor list
stays within the `maxNeighbors` bound: each layer is linked exactly once,
starting from an empty list in range, and the selector keeps at most
`maxNeighbors` ids. -/
theorem linkLayers_node_degree (tie : Nat → Nat → Bool)
    (newId enterId efC maxN : Nat) (p : Point) :
    ∀ (level : Nat) (g : List Node) (nn : Node),
      level < nn.nbrs.length →
      (∀ l, (nn.nbrs.getD l []).length ≤ maxN) →
      (∀ l, l ≤ level → nn.nbrs.getD l [] = []) →
      ∀ l, (((linkLayers tie newId enterId efC maxN p level g nn).2).nbrs.getD l []).length ≤ maxN := by
  intro level
  induction level with
  | zero =>
    intro g nn hr hb he l
    simp only [linkLayers, selectNeighbors]
    rw [foldl_pushNbr_getD 0 _ nn hr]
    by_cases h : l = 0
    · subst h
      rw [if_pos rfl, he 0 (le_refl 0)]
      simpa using pickLoop_length_le maxN _ [] (by simp)
    · rw [if_neg h]
      exact hb l
  | succ lv ih =>
    intro g nn hr hb he l
    have hr2 : lv < ((pickLoop maxN (searchLayerT tie g p enterId (lv + 1) efC) []).foldl
        (fun n nb => pushNbr n (lv + 1) nb) nn).nbrs.length := by
      rw [foldl_pushNbr_length]
      omega
    have hb2 : ∀ l2, (((pickLoop maxN (searchLayerT tie g p enterId (lv + 1) efC) []).foldl
        (fun n nb => pushNbr n (lv + 1) nb) nn).nbrs.getD l2 []).length ≤ maxN := by
      intro l2
      rw [foldl_pushNbr_getD (lv + 1) _ nn hr]
      by_cases h : l2 = lv + 1
      · rw [if_pos h, he (lv + 1) (le_refl _)]
        simpa using pickLoop_length_le maxN _ [] (by simp)
      · rw [if_neg h]
        exact hb l2
    have he2 : ∀ l2, l2 ≤ lv → (((pickLoop maxN (searchLayerT tie g p enterId (lv + 1) efC) []).foldl
        (fun n nb => pushNbr n (lv + 1) nb) nn).nbrs.getD l2 []) = [] := by
      intro l2 hl2
      rw [foldl_pushNbr_getD (lv + 1) _ nn hr, if_neg (by omega)]
      exact he l2 (by omega)
    simpa [linkLayers, selectNeighbors] using ih _ _ hr2 hb2 he2 l

/-- C8: immediately after the insertion that creates a node, that node's
neighbor list at every layer has at most `maxNeighbors` entries.  The new
node's lists start empty, the linking loop touches each layer at most once
(and only in-range layers of the new node), and the selection loop stops at
`maxNeighbors` kept ids.  (Incoming edges pushed onto pre-existing nodes by
later insertions are outside this bound, as the claim states.) -/
theorem c8_new_node_degree_bound (h : HNSW) (p : Point) (lvl l : Nat) :
    (nbrsAt (insertAtLevel h p lvl).nodes h.nodes.length l).length ≤ h.maxNeighbors := by
  by_cases hemp : h.nodes.isEmpty
  · have hexp : (insertAtLevel h p lvl).nodes = h.nodes ++ [mkNode p lvl] := by
      simp [insertAtLevel, insertAtLevelT, insertNode, hemp]
    unfold nbrsAt
    rw [hexp, getD_concat_self defaultNode h.nodes (mkNode p lvl), mkNode_getD]
    simp
  · have hexp : (insertAtLevel h p lvl).nodes =
        (linkLayers tieById h.nodes.length
          (descendLoop tieById h.nodes (mkNode p lvl).point (mkNode p lvl).level 0 h.maxLevel)
          h.efConstruction h.maxNeighbors (mkNode p lvl).point
          (min (mkNode p lvl).level h.maxLevel) h.nodes (mkNode p lvl)).1 ++
        [(linkLayers tieById h.nodes.length
          (descendLoop tieById h.nodes (mkNode p lvl).point (mkNode p lvl).level 0 h.maxLevel)
          h.efConstruction h.maxNeighbors (mkNode p lvl).point
          (min (mkNode p lvl).level h.maxLevel) h.nodes (mkNode p lvl)).2] := by
      simp [insertAtLevel, insertAtLevelT, insertNode, hemp]
    unfold nbrsAt
    rw [hexp]
    set r := linkLayers tieById h.nodes.length
      (descendLoop tieById h.nodes (mkNode p lvl).point (mkNode p lvl).level 0 h.maxLevel)
      h.efConstruction h.maxNeighbors (mkNode p lvl).point
      (min (mkNode p lvl).level h.maxLevel) h.nodes (mkNode p lvl) with hr
    have hlen : r.1.length = h.nodes.length := by
      rw [hr]
      exact linkLayers_graph_length tieById h.nodes.length
        (descendLoop tieById h.nodes (mkNode p lvl).point (mkNode p lvl).level 0 h.maxLevel)
        h.efConstruction h.maxNeighbors (mkNode p lvl).point
        (min (mkNode p lvl).level h.maxLevel) h.nodes (mkNode p lvl)
    rw [show (r.1 ++ [r.2]).getD h.nodes.length defaultNode = r.2 from by
      rw [← hlen]; exact getD_concat_self defaultNode r.1 r.2]
    rw [hr]
    exact linkLayers_node_degree tieById h.nodes.length
      (descendLoop tieById h.nodes (mkNode p lvl).point (mkNode p lvl).level 0 h.maxLevel)
      h.efConstruction h.maxNeighbors (mkNode p lvl).point
      (min (mkNode p lvl).level h.maxLevel) h.nodes (mkNode p lvl)
      (show min (mkNode p lvl).level h.maxLevel < (mkNode p lvl).nbrs.length from by
        simp only [mkNode, List.length_replicate]
        exact Nat.lt_succ_of_le (min_le_left _ _))
      (fun l2 => by rw [mkNode_getD]; simp)
      (fun l2 _ => mkNode_getD p lvl l2) l

/-- Membership after a sorted-descending insertion, for any tie order. -/
theorem mem_insertDesc (tie : Nat → Nat → Bool) (y : Int × Nat) :
    ∀ (l : List (Int × Nat)) (x : Int × Nat),
      x ∈ insertDesc tie y l ↔ x = y ∨ x ∈ l := by
  intro l
  induction l with
  | nil => intro x; simp [insertDesc]
  | cons a t ih =>
    intro x
    simp only [insertDesc]
    split
    · simp [List.mem_cons]
    · simp only [List.mem_cons, ih]
      tauto

/-- Membership after a sorted-ascending insertion, for any tie order. -/
theorem mem_insertAsc (tie : Nat → Nat → Bool) (y : Int × Nat) :
    ∀ (l : List (Int × Nat)) (x : Int × Nat),
      x ∈ insertAsc tie y l ↔ x = y ∨ x ∈ l := by
  intro l
  induction l with
  | nil => intro x; simp [insertAsc]
  | cons a t ih =>
    intro x
    simp only [insertAsc]
    split
    · simp [List.mem_cons]
    · simp only [List.mem_cons, ih]
      tauto

/-- A member of a list's tail is a member of the list. -/
theorem mem_of_tail {α : Type} (l : List α) (x : α) (hx : x ∈ l.tail) :
    x ∈ l := by
  cases l with
  | nil => exact absurd hx (by simp)
  | cons a t => exact List.mem_cons_of_mem a hx

/-- One neighbor scan only adds ids read from the popped node's
layer-`level` adjacency list to the two queues. -/
theorem scanNbr_ids (tie : Nat → Nat → Bool) (g : List Node) (p : Point)
    (ef level enter currId : Nat)
    (s : SLState) (nb : Nat) (hnb : nb ∈ nbrsAt g currId level)
    (hc : ∀ q ∈ s.cands, idOk g level enter q.2)
    (ht : ∀ q ∈ s.top, idOk g level enter q.2) :
    (∀ q ∈ (scanNbr tie g p ef s nb).cands, idOk g level enter q.2) ∧
    (∀ q ∈ (scanNbr tie g p ef s nb).top, idOk g level enter q.2) := by
  unfold scanNbr
  split
  · exact ⟨hc, ht⟩
  · dsimp only
    split
    · split
      · refine ⟨?_, ?_⟩
        · intro q hq
          rcases (mem_insertAsc _ _ _ _).mp hq with h1 | h1
          · subst h1; exact Or.inr ⟨currId, hnb⟩
          · exact hc q h1
        · intro q hq
          have hq2 := mem_of_tail _ _ hq
          rcases (mem_insertDesc _ _ _ _).mp hq2 with h1 | h1
          · subst h1; exact Or.inr ⟨currId, hnb⟩
          · exact ht q h1
      · refine ⟨?_, ?_⟩
        · intro q hq
          rcases (mem_insertAsc _ _ _ _).mp hq with h1 | h1
          · subst h1; exact Or.inr ⟨currId, hnb⟩
          · exact hc q h1
        · intro q hq
          rcases (mem_insertDesc _ _ _ _).mp hq with h1 | h1
          · subst h1; exact Or.inr ⟨currId, hnb⟩
          · exact ht q h1
    · exact ⟨hc, ht⟩

/-- Through the whole while-loop, every id in either queue is the entry id
or an id read from some layer-`level` adjacency list of the graph. -/
theorem searchLoop_ids (tie : Nat → Nat → Bool) (g : List Node) (p : Point)
    (level ef enter : Nat) :
    ∀ (fuel : Nat) (st : SLState),
      (∀ q ∈ st.cands, idOk g level enter q.2) →
      (∀ q ∈ st.top, idOk g level enter q.2) →
      ∀ q ∈ (searchLoop tie g p level ef fuel st).top, idOk g level enter q.2 := by
  intro fuel
  induction fuel with
  | zero => intro st hc ht; simpa [searchLoop] using ht
  | succ f ih =>
    intro st hc ht
    obtain ⟨cands, top, visited, lb⟩ := st
    cases cands with
    | nil => simpa [searchLoop] using ht
    | cons c rest =>
      obtain ⟨dist, currId⟩ := c
      simp only [searchLoop]
      split
      · intro q hq
        exact ht q (by simpa using hq)
      · have hc2 : ∀ q ∈ rest, idOk g level enter q.2 := by
          intro q hq
          exact hc q (List.mem_cons_of_mem _ hq)
        have hfold := foldl_inv_mem
          (fun s : SLState => (∀ q ∈ s.cands, idOk g level enter q.2) ∧
            (∀ q ∈ s.top, idOk g level enter q.2))
          (nbrsAt g currId level) (scanNbr tie g p ef)
          (fun s nb hnb hs =>
            scanNbr_ids tie g p ef level enter currId s nb hnb hs.1 hs.2)
          ⟨rest, top, visited, lb⟩ ⟨hc2, ht⟩
        exact ih _ hfold.1 hfold.2

/-- Every id returned by the layer search is the entry id or an id stored
in some node's layer-`level` adjacency list, for any tie resolution. -/
theorem searchLayerT_ids (tie : Nat → Nat → Bool) (g : List Node) (p : Point)
    (enter level ef : Nat) :
    ∀ q ∈ searchLayerT tie g p enter level ef, idOk g level enter q.2 := by
  unfold searchLayerT
  intro q hq
  refine searchLoop_ids tie g p level ef enter (searchFuel g level) _ ?_ ?_ q hq
  · intro q2 hq2
    rcases List.mem_singleton.mp hq2 with rfl
    exact Or.inl rfl
  · intro q2 hq2
    rcases List.mem_singleton.mp hq2 with rfl
    exact Or.inl rfl

/-- Every id kept by the selection loop comes from the accumulator or from
the candidate list. -/
theorem pickLoop_subset (m : Nat) :
    ∀ (tc : List (Int × Nat)) (sel : List Nat) (x : Nat),
      x ∈ pickLoop m tc sel → x ∈ sel ∨ ∃ d, (d, x) ∈ tc := by
  intro tc
  induction tc with
  | nil => intro sel x hx; exact Or.inl (by simpa [pickLoop] using hx)
  | cons a t ih =>
    intro sel x hx
    obtain ⟨d, nb⟩ := a
    simp only [pickLoop] at hx
    by_cases h1 : sel.length < m
    · rw [if_pos h1] at hx
      by_cases h2 : sel.contains nb
      · rw [if_pos h2] at hx
        rcases ih sel x hx with h | ⟨d2, hd⟩
        · exact Or.inl h
        · exact Or.inr ⟨d2, List.mem_cons_of_mem _ hd⟩
      · rw [if_neg h2] at hx
        rcases ih (sel ++ [nb]) x hx with h | ⟨d2, hd⟩
        · rcases List.mem_append.mp h with h3 | h3
          · exact Or.inl h3
          · rcases List.mem_singleton.mp h3 with rfl
            exact Or.inr ⟨d, List.mem_cons_self _ _⟩
        · exact Or.inr ⟨d2, List.mem_cons_of_mem _ hd⟩
    · rw [if_neg h1] at hx
      exact Or.inl hx

/-- When every stored id is below `bound` and the start id is too, the
greedy descent returns an id below `bound`. -/
theorem descendLoop_lt (tie : Nat → Nat → Bool) (g : List Node) (p : Point)
    (target bound : Nat)
    (hval : ∀ i l x, x ∈ nbrsAt g i l → x < bound) (hb : 0 < bound) :
    ∀ (level enter : Nat), enter < bound →
      descendLoop tie g p target enter level < bound := by
  intro level
  induction level with
  | zero => intro enter he; simpa [descendLoop] using he
  | succ lv ih =>
    intro enter he
    simp only [descendLoop]
    split
    · refine ih _ ?_
      cases hsl : searchLayerT tie g p enter (lv + 1) 1 with
      | nil => simpa [hsl] using hb
      | cons q rest =>
        have hq : q ∈ searchLayerT tie g p enter (lv + 1) 1 := by
          rw [hsl]
          exact List.mem_cons_self _ _
        rcases searchLayerT_ids tie g p enter (lv + 1) 1 q hq with h | ⟨i, hmem⟩
        · simpa [hsl, h] using he
        · simpa [hsl] using hval i (lv + 1) q.2 hmem
    · exact he

/-- Effect of one back-edge write on the adjacency view: node `nb` gains
`newId` at layer `lay` when `lay` is within its layer range; otherwise the
write stores nothing (undefined behaviour in the C++); everything else is
unchanged. -/
theorem nbrsAt_updateNode (g : List Node) (nb lay newId : Nat)
    (hnb : nb < g.length) (i l : Nat) :
    nbrsAt (updateNode g nb (fun m => pushNbr m lay newId)) i l =
      if i = nb ∧ l = lay ∧ lay < (g.getD nb defaultNode).nbrs.length
      then nbrsAt g nb lay ++ [newId] else nbrsAt g i l := by
  unfold updateNode nbrsAt
  by_cases h : i = nb
  · rw [h, getD_set_self defaultNode g nb _ hnb, pushNbr_getD]
    by_cases h2 : l = lay ∧ lay < (g.getD nb defaultNode).nbrs.length
    · rw [if_pos h2, if_pos ⟨rfl, h2.1, h2.2⟩]
    · rw [if_neg h2, if_neg (fun hc => h2 ⟨hc.2.1, hc.2.2⟩)]
  · rw [getD_set_ne defaultNode g nb i _ h, if_neg (fun hc => h hc.1)]

/-- A back-edge write never changes any node's top layer. -/
theorem levelAt_updateNode (g : List Node) (nb lay newId i : Nat) :
    levelAt (updateNode g nb (fun m => pushNbr m lay newId)) i = levelAt g i := by
  unfold levelAt updateNode
  by_cases hnb : nb < g.length
  · by_cases h : i = nb
    · rw [h, getD_set_self defaultNode g nb _ hnb, pushNbr_level]
    · rw [getD_set_ne defaultNode g nb i _ h]
  · rw [set_oob g nb _ (by omega)]

/-- A back-edge write never changes any node's layer count. -/
theorem nbrsLen_updateNode (g : List Node) (nb lay newId i : Nat) :
    ((updateNode g nb (fun m => pushNbr m lay newId)).getD i defaultNode).nbrs.length =
      ((g.getD i defaultNode)).nbrs.length := by
  unfold updateNode
  by_cases hnb : nb < g.length
  · by_cases h : i = nb
    · rw [h, getD_set_self defaultNode g nb _ hnb, pushNbr_length]
    · rw [getD_set_ne defaultNode g nb i _ h]
  · rw [set_oob g nb _ (by omega)]

/-- Membership view of one back-edge write. -/
theorem mem_nbrsAt_updateNode (g : List Node) (nb lay newId : Nat)
    (hnb : nb < g.length) (i l x : Nat) :
    x ∈ nbrsAt (updateNode g nb (fun m => pushNbr m lay newId)) i l ↔
      (x ∈ nbrsAt g i l ∨
        (i = nb ∧ l = lay ∧ lay < (g.getD i defaultNode).nbrs.length ∧
          x = newId)) := by
  rw [nbrsAt_updateNode g nb lay newId hnb i l]
  by_cases hc : i = nb ∧ l = lay ∧ lay < (g.getD nb defaultNode).nbrs.length
  · rw [if_pos hc]
    obtain ⟨rfl, rfl, h3⟩ := hc
    constructor
    · intro hx
      rcases List.mem_append.mp hx with hx1 | hx1
      · exact Or.inl hx1
      · exact Or.inr ⟨rfl, rfl, h3, List.mem_singleton.mp hx1⟩
    · rintro (hx | ⟨_, _, _, hx⟩)
      · exact List.mem_append.mpr (Or.inl hx)
      · exact List.mem_append.mpr (Or.inr (List.mem_singleton.mpr hx))
  · rw [if_neg hc]
    constructor
    · exact Or.inl
    · rintro (hx | ⟨h1, h2, h3, h4⟩)
      · exact hx
      · exact absurd ⟨h1, h2, by rw [← h1]; exact h3⟩ hc

/-- The back-edge fold never changes any node's top layer. -/
theorem levelAt_foldl_update (lay newId : Nat) :
    ∀ (chosen : List Nat) (g : List Node) (i : Nat),
      levelAt (chosen.foldl
          (fun gg nb => updateNode gg nb (fun m => pushNbr m lay newId)) g) i =
        levelAt g i := by
  intro chosen
  induction chosen with
  | nil => intro g i; rfl
  | cons a t ih =>
    intro g i
    rw [List.foldl_cons, ih, levelAt_updateNode]

/-- The back-edge fold never changes any node's layer count. -/
theorem nbrsLen_foldl_update (lay newId : Nat) :
    ∀ (chosen : List Nat) (g : List Node) (i : Nat),
      (((chosen.foldl
          (fun gg nb => updateNode gg nb (fun m => pushNbr m lay newId)) g).getD
            i defaultNode)).nbrs.length =
        ((g.getD i defaultNode)).nbrs.length := by
  intro chosen
  induction chosen with
  | nil => intro g i; rfl
  | cons a t ih =>
    intro g i
    rw [List.foldl_cons, ih, nbrsLen_updateNode]

/-- Membership view of the whole back-edge fold of `selectNeighbors`: an id
is stored afterwards iff it was stored before, or it is the new id written
at the linked layer into a chosen node whose layer range covers that
layer. -/
theorem nbrsAt_foldl_update (lay newId : Nat) :
    ∀ (chosen : List Nat) (g : List Node), (∀ nb ∈ chosen, nb < g.length) →
      ∀ i l x,
        (x ∈ nbrsAt (chosen.foldl
            (fun gg nb => updateNode gg nb (fun m => pushNbr m lay newId)) g) i l ↔
          (x ∈ nbrsAt g i l ∨
            (l = lay ∧ x = newId ∧ i ∈ chosen ∧
              lay < (g.getD i defaultNode).nbrs.length))) := by
  intro chosen
  induction chosen with
  | nil => intro g hval i l x; simp
  | cons a t ih =>
    intro g hval i l x
    rw [List.foldl_cons]
    have ha : a < g.length := hval a (List.mem_cons_self a t)
    have hlen : (updateNode g a (fun m => pushNbr m lay newId)).length = g.length := by
      simp [updateNode]
    have hval2 : ∀ nb ∈ t,
        nb < (updateNode g a (fun m => pushNbr m lay newId)).length := by
      intro nb hnb
      rw [hlen]
      exact hval nb (List.mem_cons_of_mem a hnb)
    rw [ih _ hval2 i l x, nbrsLen_updateNode g a lay newId i,
      mem_nbrsAt_updateNode g a lay newId ha i l x]
    simp only [List.mem_cons]
    constructor
    · rintro ((hx | ⟨h1, h2, h3, h4⟩) | ⟨h1, h2, h3, h4⟩)
      · exact Or.inl hx
      · exact Or.inr ⟨h2, h4, Or.inl h1, h3⟩
      · exact Or.inr ⟨h1, h2, Or.inr h3, h4⟩
    · rintro (hx | ⟨h1, h2, h3, h4⟩)
      · exact Or.inl (Or.inl hx)
      · rcases h3 with h3 | h3
        · exact Or.inl (Or.inr ⟨h3, h1, h4, h2⟩)
        · exact Or.inr ⟨h1, h2, h3, h4⟩

/-- From the invariant before linking one layer, the invariant after
linking that layer: the candidate ids are all valid old ids, the forward
edges land in the new node's in-range layer, and a back edge is stored
exactly when the chosen neighbor's layer range covers the linked layer. -/
theorem selectNeighbors_LinkInv (tie : Nat → Nat → Bool)
    (newId efC maxN lay enterId : Nat) (p : Point) (g : List Node) (nn : Node)
    (inv : LinkInv newId g nn (lay + 1)) (hent : enterId < newId)
    (hlay : lay < nn.nbrs.length) :
    LinkInv newId
      (selectNeighbors g nn newId (searchLayerT tie g p enterId lay efC) lay maxN).1
      (selectNeighbors g nn newId (searchLayerT tie g p enterId lay efC) lay maxN).2
      lay := by
  have hids : ∀ x ∈ pickLoop maxN (searchLayerT tie g p enterId lay efC) [],
      x < newId := by
    intro x hx
    rcases pickLoop_subset maxN _ [] x hx with h | ⟨d, hd⟩
    · simp at h
    · rcases searchLayerT_ids tie g p enterId lay efC (d, x) hd with h | ⟨i, hmem⟩
      · have hxe : x = enterId := h
        rw [hxe]
        exact hent
      · have hle : x ≤ newId := inv.valid i lay x hmem
        rcases Nat.lt_or_ge x newId with hlt | hge
        · exact hlt
        · have hxeq : x = newId := le_antisymm hle hge
          have hmem2 : newId ∈ nbrsAt g i lay := by
            rw [← hxeq]
            exact hmem
          have hmir := ((inv.mirror i lay).mp hmem2).1
          rw [inv.lowEmpty lay (Nat.lt_succ_self lay)] at hmir
          simp at hmir
  have hval : ∀ nb ∈ pickLoop maxN (searchLayerT tie g p enterId lay efC) [],
      nb < g.length := by
    intro nb hnb
    rw [inv.len]
    exact hids nb hnb
  have hfst : (selectNeighbors g nn newId (searchLayerT tie g p enterId lay efC) lay maxN).1 =
      List.foldl (fun gg nb => updateNode gg nb (fun m => pushNbr m lay newId)) g
        (pickLoop maxN (searchLayerT tie g p enterId lay efC) []) := rfl
  have hsnd : (selectNeighbors g nn newId (searchLayerT tie g p enterId lay efC) lay maxN).2 =
      List.foldl (fun n nb => pushNbr n lay nb) nn
        (pickLoop maxN (searchLayerT tie g p enterId lay efC) []) := rfl
  have hG := nbrsAt_foldl_update lay newId
    (pickLoop maxN (searchLayerT tie g p enterId lay efC) []) g hval
  have hN := foldl_pushNbr_getD lay
    (pickLoop maxN (searchLayerT tie g p enterId lay efC) []) nn hlay
  have hLvl : ∀ i, levelAt
      (selectNeighbors g nn newId (searchLayerT tie g p enterId lay efC) lay maxN).1 i =
      levelAt g i := by
    intro i
    rw [hfst]
    exact levelAt_foldl_update lay newId _ g i
  have hNL : ∀ i, (((selectNeighbors g nn newId (searchLayerT tie g p enterId lay efC) lay maxN).1.getD
        i defaultNode)).nbrs.length = ((g.getD i defaultNode)).nbrs.length := by
    intro i
    rw [hfst]
    exact nbrsLen_foldl_update lay newId _ g i
  refine ⟨?_, ?_, ?_, ?_, ?_, ?_, ?_⟩
  · rw [selectNeighbors_graph_length]
    exact inv.len
  · intro i hi
    rw [hNL i, hLvl i]
    exact inv.lenEq i hi
  · intro i l x hx
    rw [hfst] at hx
    rcases (hG i l x).mp hx with hx1 | ⟨_, hx2, _, _⟩
    · exact inv.valid i l x hx1
    · rw [hx2]
  · intro i l
    rw [hLvl i, hfst, hsnd, hG i l newId, hN l]
    by_cases hl : l = lay
    · rw [if_pos hl, inv.lowEmpty lay (Nat.lt_succ_self lay), List.nil_append]
      constructor
      · rintro (hm | ⟨_, _, hm3, hm4⟩)
        · have h2 := ((inv.mirror i l).mp hm).1
          rw [hl, inv.lowEmpty lay (Nat.lt_succ_self lay)] at h2
          simp at h2
        · refine ⟨hm3, ?_⟩
          have hilt : i < newId := hids i hm3
          rw [inv.lenEq i hilt] at hm4
          omega
      · rintro ⟨hm1, hm2⟩
        right
        have hilt : i < newId := hids i hm1
        refine ⟨hl, rfl, hm1, ?_⟩
        rw [inv.lenEq i hilt]
        omega
    · rw [if_neg hl]
      constructor
      · rintro (hm | ⟨hm1, _, _, _⟩)
        · exact (inv.mirror i l).mp hm
        · exact absurd hm1 hl
      · intro hm
        exact Or.inl ((inv.mirror i l).mpr hm)
  · intro i j l hi hj hli hlj
    rw [hLvl i] at hli
    rw [hLvl j] at hlj
    rw [hfst, hG i l j, hG j l i]
    constructor
    · rintro (hm | ⟨_, hm2, _, _⟩)
      · exact Or.inl ((inv.oldSym i j l hi hj hli hlj).mp hm)
      · exact absurd hm2 (by omega)
    · rintro (hm | ⟨_, hm2, _, _⟩)
      · exact Or.inl ((inv.oldSym i j l hi hj hli hlj).mpr hm)
      · exact absurd hm2 (by omega)
  · intro l hl
    rw [hsnd, hN l, if_neg (by omega)]
    exact inv.lowEmpty l (by omega)
  · intro l x hx
    rw [hsnd, hN l] at hx
    by_cases hl : l = lay
    · rw [if_pos hl] at hx
      rcases List.mem_append.mp hx with h | h
      · rw [inv.lowEmpty lay (Nat.lt_succ_self lay)] at h
        simp at h
      · exact hids x h
    · rw [if_neg hl] at hx
      exact inv.nnValid l x hx

/-- The linking loop preserves the invariant down to layer 0; all linked
layers are within the new node's layer range. -/
theorem linkLayers_LinkInv (tie : Nat → Nat → Bool) (newId efC maxN : Nat)
    (p : Point) (enterId : Nat) (hent : enterId < newId) :
    ∀ (level : Nat) (g : List Node) (nn : Node),
      level < nn.nbrs.length →
      LinkInv newId g nn (level + 1) →
      LinkInv newId (linkLayers tie newId enterId efC maxN p level g nn).1
        (linkLayers tie newId enterId efC maxN p level g nn).2 0 := by
  intro level
  induction level with
  | zero =>
    intro g nn hr inv
    exact selectNeighbors_LinkInv tie newId efC maxN 0 enterId p g nn inv hent hr
  | succ lv ih =>
    intro g nn hr inv
    have hsel := selectNeighbors_LinkInv tie newId efC maxN (lv + 1) enterId p
      g nn inv hent hr
    have hr2 : lv < ((selectNeighbors g nn newId
        (searchLayerT tie g p enterId (lv + 1) efC) (lv + 1) maxN).2).nbrs.length := by
      rw [show (selectNeighbors g nn newId
          (searchLayerT tie g p enterId (lv + 1) efC) (lv + 1) maxN).2 =
        List.foldl (fun n nb => pushNbr n (lv + 1) nb) nn
          (pickLoop maxN (searchLayerT tie g p enterId (lv + 1) efC) []) from rfl,
        foldl_pushNbr_length]
      omega
    exact ih _ _ hr2 hsel

/-- The linking loop never changes the new node's layer count. -/
theorem linkLayers_node_length (tie : Nat → Nat → Bool)
    (newId enterId efC maxN : Nat) (p : Point) :
    ∀ (level : Nat) (g : List Node) (nn : Node),
      ((linkLayers tie newId enterId efC maxN p level g nn).2).nbrs.length =
        nn.nbrs.length := by
  intro level
  induction level with
  | zero =>
    intro g nn
    simpa [linkLayers, selectNeighbors] using foldl_pushNbr_length 0 _ nn
  | succ lv ih =>
    intro g nn
    simp only [linkLayers, selectNeighbors]
    rw [ih]
    exact foldl_pushNbr_length (lv + 1) _ nn

/-- The linking loop never changes the new node's top layer. -/
theorem linkLayers_node_level (tie : Nat → Nat → Bool)
    (newId enterId efC maxN : Nat) (p : Point) :
    ∀ (level : Nat) (g : List Node) (nn : Node),
      ((linkLayers tie newId enterId efC maxN p level g nn).2).level =
        nn.level := by
  intro level
  induction level with
  | zero =>
    intro g nn
    simpa [linkLayers, selectNeighbors] using foldl_pushNbr_level 0 _ nn
  | succ lv ih =>
    intro g nn
    simp only [linkLayers, selectNeighbors]
    rw [ih]
    exact foldl_pushNbr_level (lv + 1) _ nn

/-- The adjacency view of an empty graph is empty everywhere. -/
theorem nbrsAt_nil (i l : Nat) : nbrsAt ([] : List Node) i l = [] := rfl

/-- Adjacency view of a graph extended by one node. -/
theorem nbrsAt_concat (g2 : List Node) (nn2 : Node) (i l : Nat) :
    nbrsAt (g2 ++ [nn2]) i l =
      if i < g2.length then nbrsAt g2 i l
      else if i = g2.length then nn2.nbrs.getD l [] else [] := by
  unfold nbrsAt
  rcases Nat.lt_trichotomy i g2.length with hi | hi | hi
  · rw [if_pos hi, getD_concat_lt defaultNode g2 nn2 i hi]
  · rw [if_neg (by omega), if_pos hi, hi, getD_concat_self defaultNode g2 nn2]
  · rw [if_neg (by omega), if_neg (by omega),
      getD_concat_gt defaultNode g2 nn2 i hi]
    rfl

/-- Appending the finished new node to the linked graph yields a valid
graph with in-range symmetry again. -/
theorem LinkInv_concat_good (newId : Nat) (g2 : List Node) (nn2 : Node)
    (inv : LinkInv newId g2 nn2 0) (hnn : nn2.nbrs.length = nn2.level + 1) :
    GoodGraph (g2 ++ [nn2]) := by
  have hch : ∀ i l, nbrsAt (g2 ++ [nn2]) i l =
      if i < newId then nbrsAt g2 i l
      else if i = newId then nn2.nbrs.getD l [] else [] := by
    intro i l
    rw [nbrsAt_concat g2 nn2 i l, inv.len]
  have hlev : ∀ i, levelAt (g2 ++ [nn2]) i =
      if i < newId then levelAt g2 i
      else if i = newId then nn2.level else 0 := by
    intro i
    unfold levelAt
    rcases Nat.lt_trichotomy i newId with hi | hi | hi
    · rw [if_pos hi, getD_concat_lt defaultNode g2 nn2 i (by rw [inv.len]; exact hi)]
    · rw [if_neg (by omega), if_pos hi, hi, ← inv.len,
        getD_concat_self defaultNode g2 nn2]
    · rw [if_neg (by omega), if_neg (by omega),
        getD_concat_gt defaultNode g2 nn2 i (by rw [inv.len]; exact hi)]
      rfl
  have hlenN : ∀ i, ((g2 ++ [nn2]).getD i defaultNode).nbrs.length =
      if i < newId then (g2.getD i defaultNode).nbrs.length
      else if i = newId then nn2.nbrs.length else 0 := by
    intro i
    rcases Nat.lt_trichotomy i newId with hi | hi | hi
    · rw [if_pos hi, getD_concat_lt defaultNode g2 nn2 i (by rw [inv.len]; exact hi)]
    · rw [if_neg (by omega), if_pos hi, hi, ← inv.len,
        getD_concat_self defaultNode g2 nn2]
    · rw [if_neg (by omega), if_neg (by omega),
        getD_concat_gt defaultNode g2 nn2 i (by rw [inv.len]; exact hi)]
      rfl
  refine ⟨?_, ?_, ?_⟩
  · intro i l x hx
    rw [hch i l] at hx
    rw [List.length_append, inv.len]
    split at hx
    · have := inv.valid i l x hx
      simpa using Nat.lt_succ_of_le this
    · split at hx
      · have := inv.nnValid l x hx
        simpa using Nat.lt_succ_of_lt this
      · simp at hx
  · intro i hi
    have hpl : ((g2 ++ [nn2]).getD i defaultNode).level =
        levelAt (g2 ++ [nn2]) i := rfl
    rw [hlenN i, hpl, hlev i]
    rcases Nat.lt_trichotomy i newId with h1 | h1 | h1
    · rw [if_pos h1, if_pos h1]
      exact inv.lenEq i h1
    · rw [if_neg (by omega), if_pos h1, if_neg (by omega), if_pos h1]
      exact hnn
    · rw [List.length_append, inv.len] at hi
      simp at hi
      omega
  · intro i j l hli hlj
    rw [hlev i] at hli
    rw [hlev j] at hlj
    rw [hch i l, hch j l]
    rcases Nat.lt_trichotomy i newId with hi | hi | hi <;>
      rcases Nat.lt_trichotomy j newId with hj | hj | hj
    · rw [if_pos hi] at hli
      rw [if_pos hj] at hlj
      rw [if_pos hi, if_pos hj]
      exact inv.oldSym i j l hi hj hli hlj
    · rw [if_pos hi] at hli
      rw [if_pos hi, if_neg (by omega), if_pos hj, hj]
      constructor
      · intro hm
        exact ((inv.mirror i l).mp hm).1
      · intro hm
        exact (inv.mirror i l).mpr ⟨hm, hli⟩
    · rw [if_pos hi, if_neg (by omega), if_neg (by omega)]
      constructor
      · intro hm
        have := inv.valid i l j hm
        omega
      · intro hm
        simp at hm
    · rw [if_pos hj] at hlj
      rw [if_neg (by omega), if_pos hi, if_pos hj, hi]
      constructor
      · intro hm
        exact (inv.mirror j l).mpr ⟨hm, hlj⟩
      · intro hm
        exact ((inv.mirror j l).mp hm).1
    · rw [if_neg (by omega), if_pos hi, if_neg (by omega), if_pos hj, hi, hj]
    · rw [if_neg (by omega), if_pos hi, if_neg (by omega), if_neg (by omega)]
      constructor
      · intro hm
        have := inv.nnValid l j hm
        omega
      · intro hm
        simp at hm
    · rw [if_neg (by omega), if_neg (by omega), if_pos hj]
      constructor
      · intro hm
        simp at hm
      · intro hm
        have := inv.valid j l i hm
        omega
    · rw [if_neg (by omega), if_neg (by omega), if_neg (by omega), if_pos hj]
      constructor
      · intro hm
        simp at hm
      · intro hm
        have := inv.nnValid l i hm
        omega
    · rw [if_neg (by omega), if_neg (by omega), if_neg (by omega), if_neg (by omega)]
      simp

/-- A singleton graph holding a fresh node has no edges. -/
theorem nbrsAt_single_mk (p : Point) (lvl i l : Nat) :
    nbrsAt [mkNode p lvl] i l = [] := by
  unfold nbrsAt
  cases i with
  | zero => exact mkNode_getD p lvl l
  | succ n => rfl

/-- One insertion on a well-formed graph yields a well-formed graph: the
empty branch creates an isolated node, and the linking branch maintains the
mirrored-edge invariant layer by layer, storing a back edge exactly when it
is in range. -/
theorem insertAtLevelT_good (tie : Nat → Nat → Bool) (h : HNSW) (p : Point)
    (lvl : Nat) (hg : GoodGraph h.nodes) :
    GoodGraph (insertAtLevelT tie h p lvl).nodes := by
  by_cases hemp : h.nodes.isEmpty
  · have hexp : (insertAtLevelT tie h p lvl).nodes = h.nodes ++ [mkNode p lvl] := by
      simp [insertAtLevelT, insertNode, hemp]
    have h0 : h.nodes = [] := by
      cases hn : h.nodes with
      | nil => rfl
      | cons a t => rw [hn] at hemp; simp at hemp
    rw [hexp, h0]
    have hsing : ∀ i2 l2, nbrsAt (([] : List Node) ++ [mkNode p lvl]) i2 l2 = [] := by
      intro i2 l2
      rw [show (([] : List Node) ++ [mkNode p lvl]) = [mkNode p lvl] from rfl]
      exact nbrsAt_single_mk p lvl i2 l2
    refine ⟨?_, ?_, ?_⟩
    · intro i l x hx
      rw [hsing] at hx
      simp at hx
    · intro i hi
      have hi0 : i = 0 := by
        rw [show (([] : List Node) ++ [mkNode p lvl]) = [mkNode p lvl] from rfl] at hi
        simp at hi
        omega
      rw [hi0, show (([] : List Node) ++ [mkNode p lvl]) = [mkNode p lvl] from rfl]
      simp [mkNode]
    · intro i j l hli hlj
      rw [hsing, hsing]
      simp
  · have hne : h.nodes ≠ [] := by
      intro hn
      rw [hn] at hemp
      simp at hemp
    have hlen0 : 0 < h.nodes.length := List.length_pos.mpr hne
    have hexp : (insertAtLevelT tie h p lvl).nodes =
        (linkLayers tie h.nodes.length
          (descendLoop tie h.nodes (mkNode p lvl).point (mkNode p lvl).level 0 h.maxLevel)
          h.efConstruction h.maxNeighbors (mkNode p lvl).point
          (min (mkNode p lvl).level h.maxLevel) h.nodes (mkNode p lvl)).1 ++
        [(linkLayers tie h.nodes.length
          (descendLoop tie h.nodes (mkNode p lvl).point (mkNode p lvl).level 0 h.maxLevel)
          h.efConstruction h.maxNeighbors (mkNode p lvl).point
          (min (mkNode p lvl).level h.maxLevel) h.nodes (mkNode p lvl)).2] := by
      simp [insertAtLevelT, insertNode, hemp]
    have hent : descendLoop tie h.nodes (mkNode p lvl).point (mkNode p lvl).level 0 h.maxLevel <
        h.nodes.length :=
      descendLoop_lt tie h.nodes (mkNode p lvl).point (mkNode p lvl).level
        h.nodes.length hg.1 hlen0 h.maxLevel 0 hlen0
    have hinv0 : LinkInv h.nodes.length h.nodes (mkNode p lvl)
        (min (mkNode p lvl).level h.maxLevel + 1) := by
      refine ⟨rfl, ?_, ?_, ?_, ?_, ?_, ?_⟩
      · intro i hi
        exact hg.2.1 i hi
      · intro i l x hx
        exact Nat.le_of_lt (hg.1 i l x hx)
      · intro i l
        constructor
        · intro hmem
          exact absurd (hg.1 i l h.nodes.length hmem) (lt_irrefl h.nodes.length)
        · rintro ⟨hmem, _⟩
          rw [mkNode_getD] at hmem
          simp at hmem
      · intro i j l hi hj hli hlj
        exact hg.2.2 i j l hli hlj
      · intro l _
        exact mkNode_getD p lvl l
      · intro l x hx
        rw [mkNode_getD] at hx
        simp at hx
    have hr0 : min (mkNode p lvl).level h.maxLevel < (mkNode p lvl).nbrs.length := by
      simp only [mkNode, List.length_replicate]
      exact Nat.lt_succ_of_le (min_le_left _ _)
    have hfin := linkLayers_LinkInv tie h.nodes.length h.efConstruction
      h.maxNeighbors (mkNode p lvl).point
      (descendLoop tie h.nodes (mkNode p lvl).point (mkNode p lvl).level 0 h.maxLevel)
      hent (min (mkNode p lvl).level h.maxLevel) h.nodes (mkNode p lvl) hr0 hinv0
    rw [hexp]
    refine LinkInv_concat_good h.nodes.length _ _ hfin ?_
    rw [linkLayers_node_length, linkLayers_node_level]
    simp [mkNode]

/-- Any index built by a sequence of insertions has a well-formed graph. -/
theorem buildAtLevelsT_good (tie : Nat → Nat → Bool) (maxN efC : Nat)
    (prs : List (Point × Nat)) :
    GoodGraph (buildAtLevelsT tie maxN efC prs).nodes := by
  unfold buildAtLevelsT
  refine foldl_inv_mem (fun s : HNSW => GoodGraph s.nodes) prs _ ?_ (mkHNSW maxN efC) ?_
  · intro s pr _ hs
    exact insertAtLevelT_good tie s pr.1 pr.2 hs
  · refine ⟨?_, ?_, ?_⟩
    · intro i l x hx
      rw [show (mkHNSW maxN efC).nodes = ([] : List Node) from rfl, nbrsAt_nil] at hx
      simp at hx
    · intro i hi
      rw [show (mkHNSW maxN efC).nodes = ([] : List Node) from rfl] at hi
      simp at hi
    · intro i j l _ _
      rw [show (mkHNSW maxN efC).nodes = ([] : List Node) from rfl,
        nbrsAt_nil, nbrsAt_nil]
      simp

/-- C5, counterexample: the claim as stated — symmetry at every layer after
any insertion sequence — fails on the code for reachable mixed-level
sequences.  With sampled levels 0, 2, 2 the insertion of C links C to A at
layer 2 (the forward edge is stored in C's in-range layer-2 list), but A's
`neighbors` vector has exactly one entry, so the back-edge write
`A->neighbors[2].push_back(C)` is an out-of-range vector access in the C++,
undefined behaviour that stores no readable mirrored edge: no layer-2 list
of A even exists. -/
theorem c5_asymmetric_at_mixed_levels :
    0 ∈ nbrsAt c5H.nodes 2 2 ∧
    (c5H.nodes.getD 0 defaultNode).nbrs.length = 1 ∧
    2 ∉ nbrsAt c5H.nodes 0 2 := by
  decide

/-- C5, amended: after any finite sequence of insertions (any points, any
sampled levels, any configuration), the edge relation is symmetric at every
layer within both endpoints' layer range: when layer `l` is at most the top
layer of node `i` and of node `j`, `j` is in `i`'s layer-`l` list iff `i`
is in `j`'s layer-`l` list.  The only edge creation in the code is the
paired `push_back` in `selectNeighbors`, and the back-edge write lands
exactly when the neighbor's layer range covers the linked layer. -/
theorem c5_layer_range_edge_symmetry (maxN efC : Nat)
    (prs : List (Point × Nat)) (i j l : Nat)
    (hi : l ≤ ((buildAtLevels maxN efC prs).nodes.getD i defaultNode).level)
    (hj : l ≤ ((buildAtLevels maxN efC prs).nodes.getD j defaultNode).level) :
    (j ∈ nbrsAt (buildAtLevels maxN efC prs).nodes i l ↔
      i ∈ nbrsAt (buildAtLevels maxN efC prs).nodes j l) :=
  (buildAtLevelsT_good tieById maxN efC prs).2.2 i j l hi hj

/-- Closed instance of the amended C5 theorem: both nodes of `c5W` have top
layer 0, and the layer-0 hypotheses hold, so their layer-0 adjacency is
mutual. -/
theorem c5_layer_range_edge_symmetry_witness :
    (0 ≤ ((c5W).nodes.getD 0 defaultNode).level ∧
     0 ≤ ((c5W).nodes.getD 1 defaultNode).level) ∧
    (1 ∈ nbrsAt c5W.nodes 0 0 ↔ 0 ∈ nbrsAt c5W.nodes 1 0) :=
  ⟨⟨by decide, by decide⟩,
    c5_layer_range_edge_symmetry 4 200 [(⟨[0], "A"⟩, 0), (⟨[3], "B"⟩, 0)] 0 1 0
      (by decide) (by decide)⟩

/-- C9, counterexample: the claim — identical graph topologies and
identical results for every search call across two runs with the same
configuration and insertion sequence — fails.  The C++ priority queues
order equal-distance entries by raw `Node*` comparison, an unspecified
order that is not stable across two instances or two process runs.  On the
same configuration and insertion sequence (identical sampled levels, all
0), two admissible resolutions of that tie give different result lists for
the same query: the equidistant points B and C come back in opposite
orders. -/
theorem c9_tie_order_changes_search_results :
    searchT tieById (buildAtLevelsT tieById 4 200 c9Prs) c9Q 3 ≠
      searchT tieRev (buildAtLevelsT tieRev 4 200 c9Prs) c9Q 3 := by
  decide

/-- C9, amended: what the program does guarantee across two runs with the
same configuration and insertion sequence.  The engine is default
constructed — `mkHNSW` installs the same fixed state in every instance — so
both runs sample identical level sequences; and once the unspecified heap
tie order is fixed, the rest of the pipeline is deterministic: runs
resolving distance ties identically build identical graphs and return
identical results for every search call.  Cross-run equality of topology
and results is not guaranteed when the runs resolve a distance tie
differently. -/
theorem c9_levels_and_fixed_tie_determinism (sampler : Nat → Nat × Nat)
    (maxN efC n : Nat) (tie : Nat → Nat → Bool) (pts : List Point)
    (q : Point) (k : Nat) :
    sampledLevels sampler (mkHNSW maxN efC).gen n =
      sampledLevels sampler (mkHNSW maxN efC).gen n ∧
    (buildWithT tie sampler maxN efC pts).nodes =
      (buildWithT tie sampler maxN efC pts).nodes ∧
    searchT tie (buildWithT tie sampler maxN efC pts) q k =
      searchT tie (buildWithT tie sampler maxN efC pts) q k :=
  ⟨rfl, rfl, rfl⟩

end ZHnsw
